import Mathlib

/-!
# Verification of the xrage-format converters

Shallow embedding of the xRAGE snapshot-to-columnar converters
(`src/vti2pqtv2a.cc`, the two tools in `src/vti2pqtv2b.cc`, and the two
unnamed variants `src/unnamed/part_000` / `src/unnamed/part_001`), together
with proofs and refutations of the specification's claims about them.

Machine floats are modelled two ways: `quant` evaluates the quantization
expression `roundf(v * 1000000) / 1000000` in exact rational arithmetic,
while `quant32` evaluates the same expression with every intermediate
rounded to IEEE-754 binary32 (round to nearest, ties to even), which is
what the C code's `float` arithmetic does.  Integer state (row ids,
timesteps) is modelled as `ℤ`; the values fit comfortably in 32 bits in
every scenario considered, so no overflow wrap is modelled.
-/

unseal Rat.mul Rat.add Rat.sub Rat.inv

/-! ## Quantization (`ParquetWriter::Append` in vti2pqtv2a.cc:150-157,
    vti2pqtv2b.cc:146-149, part_000:181-186) -/

/-- Fuel-driven binary logarithm on `ℕ` (`⌊log₂ n⌋` for `n ≥ 1`), written
with structural recursion on the fuel so that the kernel can evaluate it. -/
def nlog2Aux : ℕ → ℕ → ℕ
  | 0, _ => 0
  | fuel + 1, n => if n ≤ 1 then 0 else nlog2Aux fuel (n / 2) + 1

/-- `⌊log₂ n⌋` for `n ≥ 1` (fuel `n` suffices since `⌊log₂ n⌋ < n`). -/
def nlog2 (n : ℕ) : ℕ := nlog2Aux n n

/-- `2^k` as a rational, for `k : ℤ`. -/
def pow2z (k : ℤ) : ℚ :=
  if 0 ≤ k then ((2 ^ k.toNat : ℕ) : ℚ) else 1 / ((2 ^ (-k).toNat : ℕ) : ℚ)

/-- `⌊log₂ a⌋` of a positive rational: a candidate from the numerator and
denominator bit lengths, corrected by direct comparison. -/
def ilog2q (a : ℚ) : ℤ :=
  let c : ℤ := (nlog2 a.num.natAbs : ℤ) - (nlog2 a.den : ℤ)
  if a < pow2z (c - 1) then c - 2
  else if a < pow2z c then c - 1
  else if a < pow2z (c + 1) then c
  else c + 1

/-- Round a rational to the nearest integer, ties to even (the IEEE-754
default rounding used by C `float` arithmetic). -/
def rne (m : ℚ) : ℤ :=
  let f := ⌊m⌋
  if m - f < 1 / 2 then f
  else if (1 : ℚ) / 2 < m - f then f + 1
  else if f % 2 = 0 then f else f + 1

/-- Round an exact rational to the nearest IEEE-754 binary32 value
(24-bit significand, round to nearest, ties to even, subnormals below
exponent -126).  Overflow to infinity is not modelled; every value this
development feeds to `fl32` is far below the float range limit. -/
def fl32 (x : ℚ) : ℚ :=
  if x = 0 then 0
  else
    let a := |x|
    let e := max (ilog2q a) (-126)
    let sc := e - 23
    let m := a / pow2z sc
    let v := (rne m : ℚ) * pow2z sc
    if x < 0 then -v else v

/-- C `roundf`: round to the nearest integer, halfway cases away from
zero, evaluated exactly. -/
def roundfQ (x : ℚ) : ℚ := if 0 ≤ x then (⌊x + 1 / 2⌋ : ℚ) else -(⌊-x + 1 / 2⌋ : ℚ)

/-- The quantization step `roundf(v * 1000000) / 1000000` evaluated in
exact rational arithmetic (the idealized quantization map). -/
def quant (v : ℚ) : ℚ := roundfQ (v * 1000000) / 1000000

/-- The quantization step `roundf(v * 1000000) / 1000000` as the machine
computes it: the multiplication and the division are binary32 operations,
so every intermediate result is rounded to binary32.  (`roundf` of a
binary32 value is exactly representable, so the `fl32` after `roundfQ`
never changes the value; it is kept to mirror the `float` return type.) -/
def quant32 (v : ℚ) : ℚ := fl32 (fl32 (roundfQ (fl32 (v * 1000000))) / 1000000)

/-! ## The vti2pqtv2a writer (per-row-group row ids, lazy row-group flush)

`ParquetWriter` in vti2pqtv2a.cc:96-169: `Append` emits a pending
`EndRowGroup` marker lazily, then streams `timestep, rowid_++,
roundf(v02*1e6)/1e6, roundf(v03*1e6)/1e6, EndRow`;
`FlushRowGroup` merely sets the pending flag and zeroes `rowid_`. -/

/-- One output row: `timestep, rowid, v02, v03` (the four columns of
`GetSchema`, vti2pqtv2a.cc:115-132). -/
structure VRow where
  timestep : ℤ
  rowid : ℤ
  v02 : ℚ
  v03 : ℚ
deriving DecidableEq, Repr

/-- An event streamed to the parquet sink: either a complete row or an
`EndRowGroup` marker. -/
inductive Ev
  | row (r : VRow)
  | endRowGroup
deriving DecidableEq, Repr

/-- State of the vti2pqtv2a `ParquetWriter`: the event trace already sent
to the sink, the `rowid_` counter, and the `pending_rgflush_` flag. -/
structure WriterA where
  trace : List Ev
  rowid : ℤ
  pending : Bool
deriving DecidableEq, Repr

/-- Freshly constructed writer (vti2pqtv2a.cc:137: `rowid_(0),
pending_rgflush_(false)`). -/
def WriterA.init : WriterA := ⟨[], 0, false⟩

/-- `ParquetWriter::Append` (vti2pqtv2a.cc:150-157): if a row-group flush
is pending, emit `EndRowGroup` first; then emit the row, quantizing both
measurement values and post-incrementing `rowid_`. -/
def appendA (w : WriterA) (t : ℤ) (a b : ℚ) : WriterA :=
  { trace := (if w.pending then w.trace ++ [Ev.endRowGroup] else w.trace) ++
      [Ev.row ⟨t, w.rowid, quant a, quant b⟩]
    rowid := w.rowid + 1
    pending := false }

/-- `ParquetWriter::FlushRowGroup` (vti2pqtv2a.cc:159-162): set the
pending flag and reset `rowid_` to 0; the sink is not touched. -/
def flushRowGroupA (w : WriterA) : WriterA :=
  { w with pending := true, rowid := 0 }

/-- A call made on the vti2pqtv2a writer. -/
inductive OpA
  | append (t : ℤ) (a b : ℚ)
  | flush
deriving DecidableEq, Repr

/-- Run one writer call. -/
def stepA (w : WriterA) : OpA → WriterA
  | OpA.append t a b => appendA w t a b
  | OpA.flush => flushRowGroupA w

/-- Run a sequence of writer calls from the freshly constructed writer. -/
def runA (ops : List OpA) : WriterA := ops.foldl stepA WriterA.init

/-- The per-trace adjacency discipline of the vti2pqtv2a writer: a row
directly after a row increments the row id by exactly 1, the first row
after an `EndRowGroup` marker has row id 0, and two adjacent
`EndRowGroup` markers never occur. -/
def stepOK : Ev → Ev → Prop
  | Ev.row r, Ev.row r' => r'.rowid = r.rowid + 1
  | Ev.endRowGroup, Ev.row r' => r'.rowid = 0
  | Ev.row _, Ev.endRowGroup => True
  | Ev.endRowGroup, Ev.endRowGroup => False

/-! ## The vti2pqtv2b splitting converter (continuous row ids, row-count
ceiling 100*500*500) and the repack tool (ceiling 31250000)

`Rewrite0`/`Rewrite` in vti2pqtv2b.cc:169-207 (vti tool) and
vti2pqtv2b.cc:375-403 (repack tool).  Both ceilings are positive
compile-time constants; the loop models below therefore carry a
positivity hypothesis for the ceiling. -/

/-- Row-count ceiling of the .vti splitting converter
(vti2pqtv2b.cc:175: `n < 100 * 500 * 500`). -/
def vtiSplitCeiling : ℕ := 100 * 500 * 500

/-- Row-count ceiling of the repack tool (vti2pqtv2b.cc:382:
`n < 31250000`). -/
def repackCeiling : ℕ := 31250000

/-- State of the vti2pqtv2b `ParquetWriter`: the rows written to the
current output file and the `rowid_` counter, which is initialized from
`ParquetWriterOptions(rowid)` (vti2pqtv2b.cc:89-92,133). -/
structure WriterB where
  rows : List VRow
  rowid : ℤ
deriving DecidableEq, Repr

/-- `ParquetWriter::Append` (vti2pqtv2b.cc:146-149): stream `timestep,
rowid_++`, both measurement values quantized; `rowid_` is never reset. -/
def appendB (t : ℤ) (w : WriterB) (v : ℚ × ℚ) : WriterB :=
  ⟨w.rows ++ [⟨t, w.rowid, quant v.1, quant v.2⟩], w.rowid + 1⟩

/-- The write loop of `Rewrite0` (vti2pqtv2b.cc:174-179):
`while (it->Valid() && n < cap) { writer.Append(...); n++; it->Next(); }`.
Returns the writer at loop exit and the part of the stream not consumed. -/
def rewrite0BLoop (cap : ℕ) (t : ℤ) : ℕ → WriterB → List (ℚ × ℚ) → WriterB × List (ℚ × ℚ)
  | _, w, [] => (w, [])
  | n, w, v :: vs =>
    if n < cap then rewrite0BLoop cap t (n + 1) (appendB t w v) vs else (w, v :: vs)

theorem rewrite0BLoop_eq (cap : ℕ) (t : ℤ) :
    ∀ (vs : List (ℚ × ℚ)) (n : ℕ) (w : WriterB), n ≤ cap →
      rewrite0BLoop cap t n w vs =
        (((vs.take (cap - n)).foldl (appendB t) w), vs.drop (cap - n)) := by
  intro vs
  induction vs with
  | nil => intro n w _; simp [rewrite0BLoop]
  | cons v vs ih =>
    intro n w hn
    by_cases h : n < cap
    · have hcap : cap - n = (cap - (n + 1)) + 1 := by omega
      simp only [rewrite0BLoop, if_pos h, hcap, List.take_succ_cons, List.drop_succ_cons,
        List.foldl_cons]
      exact ih (n + 1) (appendB t w v) h
    · have hcap : cap - n = 0 := by omega
      simp [rewrite0BLoop, if_neg h, hcap]

/-- The split loop of `Rewrite` (vti2pqtv2b.cc:196-206): while the
iterator is valid, open file `to + "." + i`, run `Rewrite0` starting from
the carried-over `rowid`, and add the number of rows written to `rowid`.
Produces the list of (sequence index, file rows) pairs. -/
def rewriteB (cap : ℕ) (hc : 0 < cap) (t : ℤ) : ℕ → ℤ → List (ℚ × ℚ) → List (ℕ × List VRow)
  | _, _, [] => []
  | i, rid, v :: vs =>
    let p := rewrite0BLoop cap t 0 ⟨[], rid⟩ (v :: vs)
    (i, p.1.rows) :: rewriteB cap hc t (i + 1) p.1.rowid p.2
termination_by _ _ vs => vs.length
decreasing_by
  simp only [rewrite0BLoop_eq cap t (v :: vs) 0 ⟨[], rid⟩ (Nat.zero_le cap), Nat.sub_zero,
    List.length_drop, List.length_cons]
  omega

/-- The rows the vti2pqtv2b writer produces for a value stream, starting
from row id `rid`: the reference (ceiling-free) run of the append loop. -/
def bRows (t : ℤ) : ℤ → List (ℚ × ℚ) → List VRow
  | _, [] => []
  | rid, v :: vs => ⟨t, rid, quant v.1, quant v.2⟩ :: bRows t (rid + 1) vs

/-! ## The repack reader-to-writer bridge (vti2pqtv2b.cc:353-355,375-403)

The repack `ParquetWriter::Append` streams `timestep, rowid, v02, v03`
exactly as decoded — no quantization, no transformation of values. -/

/-- Repack `ParquetWriter::Append` (vti2pqtv2b.cc:353-355): append the
decoded row unchanged to the current output file. -/
def appendRepack (w : List VRow) (r : VRow) : List VRow := w ++ [r]

/-- The copy loop of the repack `Rewrite0` (vti2pqtv2b.cc:379-386):
`while (!reader->eof() && n < 31250000) { read row; writer.Append(row);
n++; }`.  Returns the rows written and the rows not yet consumed. -/
def rewrite0RLoop (cap : ℕ) : ℕ → List VRow → List VRow → List VRow × List VRow
  | _, w, [] => (w, [])
  | n, w, r :: rest =>
    if n < cap then rewrite0RLoop cap (n + 1) (appendRepack w r) rest else (w, r :: rest)

theorem rewrite0RLoop_eq (cap : ℕ) :
    ∀ (rows : List VRow) (n : ℕ) (w : List VRow), n ≤ cap →
      rewrite0RLoop cap n w rows = (w ++ rows.take (cap - n), rows.drop (cap - n)) := by
  intro rows
  induction rows with
  | nil => intro n w _; simp [rewrite0RLoop]
  | cons r rest ih =>
    intro n w hn
    by_cases h : n < cap
    · have hcap : cap - n = (cap - (n + 1)) + 1 := by omega
      simp only [rewrite0RLoop, if_pos h, hcap, List.take_succ_cons, List.drop_succ_cons]
      rw [ih (n + 1) (appendRepack w r) h]
      simp [appendRepack]
    · have hcap : cap - n = 0 := by omega
      simp [rewrite0RLoop, if_neg h, hcap]

/-- The split loop of the repack `Rewrite` (vti2pqtv2b.cc:396-402): while
the reader is not at end of file, open `src + "." + i++` and run
`Rewrite0` on it. -/
def rewriteR (cap : ℕ) (hc : 0 < cap) : ℕ → List VRow → List (ℕ × List VRow)
  | _, [] => []
  | i, r :: rest =>
    let p := rewrite0RLoop cap 0 [] (r :: rest)
    (i, p.1) :: rewriteR cap hc (i + 1) p.2
termination_by _ rows => rows.length
decreasing_by
  simp only [rewrite0RLoop_eq cap (r :: rest) 0 [] (Nat.zero_le cap), Nat.sub_zero,
    List.length_drop, List.length_cons]
  omega

/-- Output file name of split file `i` (vti2pqtv2b.cc:201-203 and
vti2pqtv2b.cc:398-400): the base name, a `'.'`, and the decimal sequence
index. -/
def splitName (base : String) (i : ℕ) : String := base ++ "." ++ Nat.repr i

/-- The file names the repack split loop produces, in production order. -/
def rewriteRNames (cap : ℕ) (hc : 0 < cap) (base : String) (rows : List VRow) : List String :=
  (rewriteR cap hc 0 rows).map (fun p => splitName base p.1)

/-- The file names the vti split loop produces, in production order. -/
def rewriteBNames (cap : ℕ) (hc : 0 < cap) (t : ℤ) (base : String) (vals : List (ℚ × ℚ)) :
    List String :=
  (rewriteB cap hc t 0 0 vals).map (fun p => splitName base p.1)

/-! ## Work scheduling (`ProcessDir`)

vti2pqtv2a.cc:201-240 collects `.vti` files into `std::map<int,
std::string> work_items` keyed by the 5-digit timestep parsed from the
filename (`atoi(f.substr(f.size() - 4 - 5, 5))`), so iteration is in
strictly ascending key order and a later duplicate key overwrites the
earlier entry.  vti2pqtv2b.cc:209-239 has no map: it calls `Rewrite` on
each matching directory entry as it is enumerated.  File names are
modelled as `List Char`. -/

/-- `StringEndWith` (vti2pqtv2a.cc:173-180): does `str` end with
`suffix`? -/
def stringEndWith (str suffix : List Char) : Bool := List.isSuffixOf suffix str

/-- Accumulate the leading decimal digits of `s` onto `acc`, stopping at
the first non-digit character (the digit-consuming loop of C `atoi`). -/
def digitsVal : List Char → ℤ → ℤ
  | [], acc => acc
  | c :: cs, acc =>
    if c.isDigit then digitsVal cs (acc * 10 + ((c.toNat : ℤ) - 48)) else acc

/-- C `atoi`: skip leading whitespace, consume an optional sign and then
leading decimal digits; a string with no leading digits parses to 0. -/
def atoiChars (s : List Char) : ℤ :=
  match s.dropWhile Char.isWhitespace with
  | '-' :: rest => -(digitsVal rest 0)
  | '+' :: rest => digitsVal rest 0
  | rest => digitsVal rest 0

/-- The timestep key embedded in a filename: `atoi` of the 5 characters
that precede the 4-character suffix (vti2pqtv2a.cc:225,
vti2pqtv2b.cc:231: `atoi(f.substr(f.size() - 4 - 5, 5).c_str())`). -/
def extractKey (f : List Char) : ℤ := atoiChars ((f.drop (f.length - 9)).take 5)

/-- Insertion into the ordered mapping `std::map<int, std::string>`
(vti2pqtv2a.cc:202,226: `work_items[t] = tmp1`): keep keys strictly
ascending, a duplicate key replaces the stored value. -/
def mapInsert (k : ℤ) (v : List Char) : List (ℤ × List Char) → List (ℤ × List Char)
  | [] => [(k, v)]
  | (k', v') :: rest =>
    if k < k' then (k, v) :: (k', v') :: rest
    else if k = k' then (k, v) :: rest
    else (k', v') :: mapInsert k v rest

/-- The `.vti` suffix tested by both `ProcessDir` loops. -/
def vtiSuffix : List Char := ['.', 'v', 't', 'i']

/-- The work sequence of vti2pqtv2a's `ProcessDir` (lines 201-240): fold
the directory entries into the ordered map, then process the map in
iteration order.  Each entry is a (timestep key, file name) pair. -/
def processDirA (files : List (List Char)) : List (ℤ × List Char) :=
  files.foldl
    (fun m f => if stringEndWith f vtiSuffix then mapInsert (extractKey f) f m else m) []

/-- The work sequence of vti2pqtv2b's `ProcessDir` (lines 209-239): each
matching entry is rewritten immediately, in directory-enumeration order;
there is no ordered map, no sorting and no duplicate collapsing. -/
def processDirB (files : List (List Char)) : List (ℤ × List Char) :=
  files.foldl
    (fun acc f => if stringEndWith f vtiSuffix then acc ++ [(extractKey f, f)] else acc) []

/-- The matching files with embedded key `k`, in enumeration order. -/
def matchesWithKey (files : List (List Char)) (k : ℤ) : List (List Char) :=
  (files.filter (fun f => stringEndWith f vtiSuffix)).filter (fun f => extractKey f = k)

/-! ## Fatal errors (missing field, missing cycle-index attribute)

`Iterator::Iterator` (vti2pqtv2a.cc:80-90, vti2pqtv2b.cc:77-87) selects
the arrays `"v02"` and `"v03"` with
`vtkFloatArray::FastDownCast(pointData->GetAbstractArray(name))->GetPointer(0)`,
and `ExtraMetadata` (part_000:96-120) reads the `"cycle_index"` field
array the same way.  `GetAbstractArray` returns a null pointer when no
array has the requested name (the external VTK lookup contract; spec §9
notes the resulting "null-pointer dereference when a field name is
absent"), so a missing name crashes the process through a null-pointer
dereference: the process terminates abnormally without printing any
diagnostic.  By contrast, an unopenable directory is reported with
`fprintf(stderr, ...)` followed by `exit(EXIT_FAILURE)`
(vti2pqtv2a.cc:204-207). -/

/-- How a run of the converter terminates fatally: a reported diagnostic
followed by `exit(EXIT_FAILURE)`, or an abnormal termination by
null-pointer dereference (which prints nothing). -/
inductive Fatal
  | diagExit (msg : List Char)
  | nullDeref
deriving DecidableEq, Repr

/-- The diagnostic a fatal outcome reports, if any: a null-pointer
dereference reports none. -/
def fatalDiagnostic : Fatal → Option (List Char)
  | Fatal.diagExit msg => some msg
  | Fatal.nullDeref => none

/-- A source snapshot as the converters see it: the named point-data
float arrays, and the named field-data (auxiliary attribute) arrays. -/
structure VtiImage where
  pointArrays : List (List Char × List ℚ)
  fieldArrays : List (List Char × List ℤ)
deriving Repr

/-- `vtkPointData::GetAbstractArray(name)`: the data of the first
point-data array called `name`, or `none` (a null pointer) when no array
has that name. -/
def getPointArray (img : VtiImage) (name : List Char) : Option (List ℚ) :=
  (img.pointArrays.find? (fun p => p.1 = name)).map (fun p => p.2)

/-- `vtkFieldData::GetAbstractArray(name)` for the auxiliary integer
attribute arrays. -/
def getFieldArray (img : VtiImage) (name : List Char) : Option (List ℤ) :=
  (img.fieldArrays.find? (fun p => p.1 = name)).map (fun p => p.2)

/-- `Iterator::Iterator` (vti2pqtv2a.cc:80-90): fetch the `"v02"` and
`"v03"` array pointers.  A missing array makes `GetAbstractArray` return
null and the immediate `->GetPointer(0)` dereference crash. -/
def iteratorCtor (img : VtiImage) : Except Fatal (List ℚ × List ℚ) :=
  match getPointArray img ['v', '0', '2'] with
  | none => Except.error Fatal.nullDeref
  | some d2 =>
    match getPointArray img ['v', '0', '3'] with
    | none => Except.error Fatal.nullDeref
    | some d3 => Except.ok (d2, d3)

/-- `Rewrite` (vti2pqtv2a.cc:182-199) driven on one snapshot: construct
the iterator, then append one row per record and flush the row group.
Returns the writer state reached and the fatal outcome, if any; on a
fatal iterator construction the writer is returned untouched. -/
def rewriteARun (img : VtiImage) (t : ℤ) (w : WriterA) : WriterA × Option Fatal :=
  match iteratorCtor img with
  | Except.error e => (w, some e)
  | Except.ok (d2, d3) =>
    (flushRowGroupA ((d2.zip d3).foldl (fun w' v => appendA w' t v.1 v.2) w), none)

/-- `ExtraMetadata` (part_000:96-120), cycle-index part: read value 0 of
the `"cycle_index"` field array with
`vtkIntArray::FastDownCast(fieldData->GetAbstractArray("cycle_index"))->GetValue(0)`.
A missing attribute is the same null-pointer dereference.  (The extent,
origin and spacing entries always exist on a `vtkImageData` and are not
modelled.) -/
def extraMetadataCycle (img : VtiImage) : Except Fatal ℤ :=
  match getFieldArray img ['c', 'y', 'c', 'l', 'e', '_', 'i', 'n', 'd', 'e', 'x'] with
  | none => Except.error Fatal.nullDeref
  | some vals => Except.ok (vals.headI)

/-- `Rewrite` of part_000 (lines 203-221) on one snapshot: the metadata
(including the cycle index) is extracted and handed to the writer
constructor before the append loop runs, so a missing `cycle_index`
attribute is fatal before any row is written.  Rows are `(rowid, v02,
v03)`; only the row count matters here, so the rows written are counted. -/
def rewrite000Run (img : VtiImage) : ℕ × Option Fatal :=
  match extraMetadataCycle img with
  | Except.error e => (0, some e)
  | Except.ok _ =>
    match iteratorCtor img with
    | Except.error e => (0, some e)
    | Except.ok (d2, d3) => ((d2.zip d3).length, none)

/-! ## Writer properties and schemas (the encoding policy, §6)

Each variant configures a `parquet::WriterProperties::Builder` at writer
construction: vti2pqtv2a.cc:135-148, vti2pqtv2b.cc:131-144 (vti tool),
vti2pqtv2b.cc:338-351 (repack tool), part_000:167-179, part_001:172-179.
In part_001 the `builder.disable_dictionary()` call is commented out and
no per-column compression or encoding is set at all. -/

/-- Compression codecs the sources use. -/
inductive Codec
  | uncompressed
  | snappy
  | zstd
deriving DecidableEq, Repr

/-- Value encodings the sources request. -/
inductive ColEnc
  | plain
  | deltaBinaryPacked
deriving DecidableEq, Repr

/-- Physical column types of the output schemas. -/
inductive PhysType
  | int32
  | float
deriving DecidableEq, Repr

/-- The writer-properties state a `parquet::WriterProperties::Builder`
accumulates. -/
structure WriterProps where
  colCompression : List (String × Codec)
  defaultCompression : Codec
  colEncoding : List (String × ColEnc)
  defaultEncoding : Option ColEnc
  dictionaryEnabled : Bool
deriving DecidableEq, Repr

/-- A fresh builder: parquet defaults are uncompressed data pages, no
explicit value encoding, and dictionary encoding enabled. -/
def WriterProps.start : WriterProps := ⟨[], Codec.uncompressed, [], none, true⟩

/-- `builder.compression(col, codec)`. -/
def WriterProps.compressionFor (p : WriterProps) (col : String) (c : Codec) : WriterProps :=
  { p with colCompression := p.colCompression ++ [(col, c)] }

/-- `builder.compression(codec)` (file-level default). -/
def WriterProps.compressionDefault (p : WriterProps) (c : Codec) : WriterProps :=
  { p with defaultCompression := c }

/-- `builder.encoding(col, enc)`. -/
def WriterProps.encodingFor (p : WriterProps) (col : String) (e : ColEnc) : WriterProps :=
  { p with colEncoding := p.colEncoding ++ [(col, e)] }

/-- `builder.encoding(enc)` (default value encoding). -/
def WriterProps.encodingDefault (p : WriterProps) (e : ColEnc) : WriterProps :=
  { p with defaultEncoding := some e }

/-- `builder.disable_dictionary()`. -/
def WriterProps.disableDictionary (p : WriterProps) : WriterProps :=
  { p with dictionaryEnabled := false }

/-- The effective value encoding of a column: the last per-column setting
if there is one, else the default setting (if any; otherwise the parquet
dictionary/fallback default applies). -/
def effEncoding (p : WriterProps) (col : String) : Option ColEnc :=
  match (p.colEncoding.reverse).find? (fun q => q.1 = col) with
  | some q => some q.2
  | none => p.defaultEncoding

/-- The effective compression codec of a column. -/
def effCompression (p : WriterProps) (col : String) : Codec :=
  match (p.colCompression.reverse).find? (fun q => q.1 = col) with
  | some q => q.2
  | none => p.defaultCompression

/-- Builder calls of vti2pqtv2a.cc:138-145. -/
def writerPropsA : WriterProps :=
  ((((((WriterProps.start.compressionFor "timestep" Codec.snappy).compressionFor
      "rowid" Codec.snappy).compressionDefault Codec.uncompressed).encodingFor
      "timestep" ColEnc.deltaBinaryPacked).encodingFor
      "rowid" ColEnc.deltaBinaryPacked).encodingDefault ColEnc.plain).disableDictionary

/-- Builder calls of the vti splitting tool, vti2pqtv2b.cc:134-141
(identical to vti2pqtv2a). -/
def writerPropsBVti : WriterProps := writerPropsA

/-- Builder calls of the repack tool, vti2pqtv2b.cc:341-348 (identical to
vti2pqtv2a). -/
def writerPropsRepack : WriterProps := writerPropsA

/-- Builder calls of part_000:168-174 (only `rowid` appears; `timestep`
is not a column of that schema). -/
def writerProps000 : WriterProps :=
  ((((WriterProps.start.compressionFor "rowid" Codec.snappy).compressionDefault
      Codec.uncompressed).encodingFor
      "rowid" ColEnc.deltaBinaryPacked).encodingDefault ColEnc.plain).disableDictionary

/-- Builder calls of part_001:173-176: only a ZSTD file-level default
compression; `builder.disable_dictionary()` is commented out and no
encoding is set. -/
def writerProps001 : WriterProps :=
  WriterProps.start.compressionDefault Codec.zstd

/-- `GetSchema` of vti2pqtv2a.cc:115-132 and of both vti2pqtv2b tools:
`timestep, rowid : INT32; v02, v03 : FLOAT`, all REQUIRED. -/
def schemaA : List (String × PhysType) :=
  [("timestep", PhysType.int32), ("rowid", PhysType.int32),
   ("v02", PhysType.float), ("v03", PhysType.float)]

/-- `GetSchema` of part_000:142-161: `rowid : INT32; v02, v03 : FLOAT`. -/
def schema000 : List (String × PhysType) :=
  [("rowid", PhysType.int32), ("v02", PhysType.float), ("v03", PhysType.float)]

/-- `GetSchema` of part_001:131-168: eleven FLOAT measurement columns,
no integer key columns. -/
def schema001 : List (String × PhysType) :=
  [("rho", PhysType.float), ("prs", PhysType.float), ("tev", PhysType.float),
   ("xdt", PhysType.float), ("ydt", PhysType.float), ("zdt", PhysType.float),
   ("snd", PhysType.float), ("grd", PhysType.float), ("mat", PhysType.float),
   ("v02", PhysType.float), ("v03", PhysType.float)]

/-! ## Supporting lemmas: exact quantization -/

theorem abs_roundfQ_sub_le (x : ℚ) : |roundfQ x - x| ≤ 1 / 2 := by
  unfold roundfQ
  rcases le_or_lt 0 x with hx | hx
  · rw [if_pos hx, abs_le]
    have h1 : (⌊x + 1 / 2⌋ : ℚ) ≤ x + 1 / 2 := Int.floor_le _
    have h2 : x + 1 / 2 - 1 < (⌊x + 1 / 2⌋ : ℚ) := Int.sub_one_lt_floor _
    constructor <;> linarith
  · rw [if_neg (not_le.mpr hx), abs_le]
    have h1 : (⌊-x + 1 / 2⌋ : ℚ) ≤ -x + 1 / 2 := Int.floor_le _
    have h2 : -x + 1 / 2 - 1 < (⌊-x + 1 / 2⌋ : ℚ) := Int.sub_one_lt_floor _
    constructor <;> linarith

theorem roundfQ_intCast (n : ℤ) : roundfQ (n : ℚ) = n := by
  have hhalf : ⌊(1 : ℚ) / 2⌋ = 0 := by
    rw [Int.floor_eq_zero_iff]
    constructor <;> norm_num
  unfold roundfQ
  rcases le_or_lt 0 ((n : ℚ)) with h | h
  · rw [if_pos h, add_comm, Int.floor_add_int, hhalf]
    push_cast
    ring
  · rw [if_neg (not_le.mpr h),
      show -(n : ℚ) + 1 / 2 = 1 / 2 + ((-n : ℤ) : ℚ) by push_cast; ring,
      Int.floor_add_int, hhalf]
    push_cast
    ring

theorem roundfQ_exists_int (x : ℚ) : ∃ n : ℤ, roundfQ x = (n : ℚ) := by
  unfold roundfQ
  split
  · exact ⟨⌊x + 1 / 2⌋, rfl⟩
  · exact ⟨-⌊-x + 1 / 2⌋, by push_cast; ring⟩

theorem quant_sub_eq (v : ℚ) :
    quant v - v = (roundfQ (v * 1000000) - v * 1000000) / 1000000 := by
  unfold quant
  ring

/-! ## Claim C5: the quantization error -/

/-- C5 counterexample: for v = 2⁻²³ (an exact binary32 value), the stored
value `roundf(v * 1000000) / 1000000` is 0 — in exact arithmetic and in
binary32 arithmetic alike — so its relative error with respect to v is 1,
not at most 5×10⁻⁷; nor is 0 the rounding of v to 6 significant decimal
digits (that would be 1.19209×10⁻⁷ ≠ 0). -/
theorem quant_relative_error_cex :
    quant (1 / 8388608) = 0 ∧ quant32 (1 / 8388608) = 0 ∧
    ¬|quant (1 / 8388608) - 1 / 8388608| ≤ 5 / 10000000 * |(1 / 8388608 : ℚ)| ∧
    ¬|quant32 (1 / 8388608) - 1 / 8388608| ≤ 5 / 10000000 * |(1 / 8388608 : ℚ)| := by
  decide

/-- C5 (amended): the stored value `roundf(v * 1000000) / 1000000` is v
rounded to the nearest multiple of 10⁻⁶ (6 decimal places, halves away
from zero), so in exact arithmetic its absolute error is at most 5×10⁻⁷;
the 5×10⁻⁷ relative-error bound holds whenever 1 ≤ |v|. -/
theorem quant_fixed_point_error (v : ℚ) :
    |quant v - v| ≤ 5 / 10000000 ∧
    (1 ≤ |v| → |quant v - v| ≤ 5 / 10000000 * |v|) := by
  have key : |quant v - v| ≤ 5 / 10000000 := by
    rw [quant_sub_eq, abs_div, abs_of_pos (show (0 : ℚ) < 1000000 by norm_num),
      div_le_iff₀ (show (0 : ℚ) < 1000000 by norm_num)]
    have h := abs_roundfQ_sub_le (v * 1000000)
    linarith
  exact ⟨key, fun hv =>
    le_trans key (le_mul_of_one_le_right (by norm_num) hv)⟩

/-- C5 witness: the amended bound instantiated at v = 3/2. -/
theorem quant_fixed_point_error_witness :
    (1 ≤ |(3 / 2 : ℚ)|) ∧ |quant (3 / 2) - 3 / 2| ≤ 5 / 10000000 ∧
    |quant (3 / 2) - 3 / 2| ≤ 5 / 10000000 * |(3 / 2 : ℚ)| :=
  ⟨by decide, (quant_fixed_point_error (3 / 2)).1,
   (quant_fixed_point_error (3 / 2)).2 (by decide)⟩

/-! ## Claim C6: quantization idempotence -/

set_option maxRecDepth 8192 in
/-- C6 counterexample: for the binary32 value x = 2097155/2¹⁸ =
8.000011444…, binary32 evaluation of `roundf(x * 1000000) / 1000000`
gives 8388621/2²⁰ = 8.000012397…, and quantizing that already-quantized
value again gives 4194311/2¹⁹ = 8.000013351… — double rounding makes the
float computation non-idempotent. -/
theorem quant32_not_idempotent_cex :
    quant32 (2097155 / 262144) = 8388621 / 1048576 ∧
    quant32 (quant32 (2097155 / 262144)) = 4194311 / 524288 ∧
    quant32 (quant32 (2097155 / 262144)) ≠ quant32 (2097155 / 262144) := by
  decide

/-- C6 (amended): the quantization map is idempotent in exact arithmetic:
`quant (quant x) = quant x` for every rational x.  (Under binary32
evaluation this can fail by double rounding; see the counterexample.) -/
theorem quant_idempotent_exact (x : ℚ) : quant (quant x) = quant x := by
  obtain ⟨n, hn⟩ := roundfQ_exists_int (x * 1000000)
  unfold quant
  rw [hn, div_mul_cancel₀ _ (show (1000000 : ℚ) ≠ 0 by norm_num), roundfQ_intCast]

/-! ## Claim C9: the encoding policy -/

/-- C9 counterexample: in the part_001 variant the
`builder.disable_dictionary()` call is commented out and no per-column
encoding is configured, so dictionary encoding stays enabled for its
(all-float, continuous-measurement) columns and the plain encoding is
not requested. -/
theorem encoding_policy_cex :
    writerProps001.dictionaryEnabled = true ∧
    ("rho", PhysType.float) ∈ schema001 ∧
    effEncoding writerProps001 "rho" ≠ some ColEnc.plain := by
  decide

/-- C9 (amended): in the four quantizing variants (vti2pqtv2a, both
vti2pqtv2b tools, part_000) the integer key columns present in the schema
(`timestep`, `rowid`) use delta encoding with snappy compression, the
measurement float columns get the plain default encoding with
uncompressed data pages, and dictionary encoding is disabled; the
part_001 variant only sets a ZSTD file-level default compression,
leaving dictionary encoding enabled and setting no per-column encoding
at all. -/
theorem encoding_policy_per_variant :
    (effEncoding writerPropsA "timestep" = some ColEnc.deltaBinaryPacked ∧
      effCompression writerPropsA "timestep" = Codec.snappy ∧
      effEncoding writerPropsA "rowid" = some ColEnc.deltaBinaryPacked ∧
      effCompression writerPropsA "rowid" = Codec.snappy ∧
      effEncoding writerPropsA "v02" = some ColEnc.plain ∧
      effEncoding writerPropsA "v03" = some ColEnc.plain ∧
      effCompression writerPropsA "v02" = Codec.uncompressed ∧
      effCompression writerPropsA "v03" = Codec.uncompressed ∧
      writerPropsA.defaultCompression = Codec.uncompressed ∧
      writerPropsA.dictionaryEnabled = false) ∧
    writerPropsBVti = writerPropsA ∧
    writerPropsRepack = writerPropsA ∧
    (effEncoding writerProps000 "rowid" = some ColEnc.deltaBinaryPacked ∧
      effCompression writerProps000 "rowid" = Codec.snappy ∧
      effEncoding writerProps000 "v02" = some ColEnc.plain ∧
      effEncoding writerProps000 "v03" = some ColEnc.plain ∧
      effCompression writerProps000 "v02" = Codec.uncompressed ∧
      effCompression writerProps000 "v03" = Codec.uncompressed ∧
      writerProps000.defaultCompression = Codec.uncompressed ∧
      writerProps000.dictionaryEnabled = false) ∧
    (writerProps001.defaultCompression = Codec.zstd ∧
      writerProps001.dictionaryEnabled = true ∧
      writerProps001.colCompression = [] ∧
      writerProps001.colEncoding = [] ∧
      writerProps001.defaultEncoding = none) := by
  decide

/-! ## Claim C7: missing field / missing cycle-index attribute -/

/-- A snapshot that has a `"v03"` point array and a populated auxiliary
attribute store, but no `"v02"` array and no `"cycle_index"` attribute. -/
def imgNoV02 : VtiImage :=
  ⟨[(['v', '0', '3'], [1, 2])], [(['o', 't', 'h', 'e', 'r'], [5])]⟩

/-- C7 counterexample: on a snapshot with no `"v02"` array, the run is
fatal and writes no row, but the fatal outcome is the null-pointer
dereference, which reports no diagnostic — the claim's "reported
diagnostic" does not exist.  Likewise for the missing cycle-index
attribute in the part_000 metadata extractor. -/
theorem missing_field_no_diagnostic_cex :
    (rewriteARun imgNoV02 7 WriterA.init).2 = some Fatal.nullDeref ∧
    ((rewriteARun imgNoV02 7 WriterA.init).2.bind fatalDiagnostic) = none ∧
    (rewriteARun imgNoV02 7 WriterA.init).1.trace = [] ∧
    rewrite000Run imgNoV02 = (0, some Fatal.nullDeref) := by
  decide

/-- C7 (amended): selecting a named field that does not exist in the
source, or reading the cycle-index attribute when it is absent, is fatal
and occurs before any row is written — but it terminates the process
through a null-pointer dereference, which reports no diagnostic, rather
than through a reported diagnostic followed by exit. -/
theorem missing_field_fatal_before_rows (img : VtiImage) (t : ℤ) (w : WriterA) :
    ((getPointArray img ['v', '0', '2'] = none ∨
        getPointArray img ['v', '0', '3'] = none) →
      rewriteARun img t w = (w, some Fatal.nullDeref) ∧
      (rewriteARun img t w).1.trace = w.trace ∧
      fatalDiagnostic Fatal.nullDeref = none) ∧
    (getFieldArray img ['c', 'y', 'c', 'l', 'e', '_', 'i', 'n', 'd', 'e', 'x'] = none →
      rewrite000Run img = (0, some Fatal.nullDeref) ∧
      fatalDiagnostic Fatal.nullDeref = none) := by
  constructor
  · intro hmiss
    have hctor : iteratorCtor img = Except.error Fatal.nullDeref := by
      unfold iteratorCtor
      rcases hmiss with h | h
      · rw [h]
      · cases h2 : getPointArray img ['v', '0', '2'] with
        | none => rfl
        | some d2 => rw [h]
    refine ⟨?_, ?_, rfl⟩
    · unfold rewriteARun
      rw [hctor]
    · unfold rewriteARun
      rw [hctor]
  · intro hmiss
    have hcm : extraMetadataCycle img = Except.error Fatal.nullDeref := by
      unfold extraMetadataCycle
      rw [hmiss]
    exact ⟨by unfold rewrite000Run; rw [hcm], rfl⟩

/-- C7 witness: the amended claim applied to the concrete snapshot
`imgNoV02` with a fresh writer. -/
theorem missing_field_fatal_before_rows_witness :
    (getPointArray imgNoV02 ['v', '0', '2'] = none ∨
      getPointArray imgNoV02 ['v', '0', '3'] = none) ∧
    getFieldArray imgNoV02 ['c', 'y', 'c', 'l', 'e', '_', 'i', 'n', 'd', 'e', 'x'] = none ∧
    rewriteARun imgNoV02 7 WriterA.init = (WriterA.init, some Fatal.nullDeref) ∧
    rewrite000Run imgNoV02 = (0, some Fatal.nullDeref) :=
  ⟨Or.inl (by decide), by decide,
   ((missing_field_fatal_before_rows imgNoV02 7 WriterA.init).1 (Or.inl (by decide))).1,
   ((missing_field_fatal_before_rows imgNoV02 7 WriterA.init).2 (by decide)).1⟩

/-! ## Supporting lemmas: the repack split loop -/

theorem rewriteR_nil (cap : ℕ) (hc : 0 < cap) (i : ℕ) : rewriteR cap hc i [] = [] := by
  simp [rewriteR]

theorem rewriteR_cons (cap : ℕ) (hc : 0 < cap) (i : ℕ) (r : VRow) (rest : List VRow) :
    rewriteR cap hc i (r :: rest) =
      (i, (r :: rest).take cap) :: rewriteR cap hc (i + 1) ((r :: rest).drop cap) := by
  simp only [rewriteR, rewrite0RLoop_eq cap (r :: rest) 0 [] (Nat.zero_le cap),
    Nat.sub_zero, List.nil_append]

theorem rewriteR_eq_nil_iff (cap : ℕ) (hc : 0 < cap) (i : ℕ) (rows : List VRow) :
    rewriteR cap hc i rows = [] ↔ rows = [] := by
  cases rows with
  | nil => simp [rewriteR_nil]
  | cons r rest => simp [rewriteR_cons]

theorem rewriteR_join_aux (cap : ℕ) (hc : 0 < cap) :
    ∀ (n : ℕ) (rows : List VRow), rows.length ≤ n → ∀ (i : ℕ),
      ((rewriteR cap hc i rows).map Prod.snd).flatten = rows := by
  intro n
  induction n with
  | zero =>
    intro rows h i
    have : rows = [] := by cases rows <;> simp_all
    subst this
    simp [rewriteR_nil]
  | succ n ih =>
    intro rows h i
    cases rows with
    | nil => simp [rewriteR_nil]
    | cons r rest =>
      have hlen : ((r :: rest).drop cap).length ≤ n := by
        simp only [List.length_drop, List.length_cons]
        simp only [List.length_cons] at h
        omega
      rw [rewriteR_cons]
      simp only [List.map_cons, List.flatten_cons]
      rw [ih _ hlen (i + 1), List.take_append_drop]

theorem rewriteR_join (cap : ℕ) (hc : 0 < cap) (i : ℕ) (rows : List VRow) :
    ((rewriteR cap hc i rows).map Prod.snd).flatten = rows :=
  rewriteR_join_aux cap hc rows.length rows le_rfl i

theorem rewriteR_map_fst_aux (cap : ℕ) (hc : 0 < cap) :
    ∀ (n : ℕ) (rows : List VRow), rows.length ≤ n → ∀ (i : ℕ),
      (rewriteR cap hc i rows).map Prod.fst =
        List.range' i (rewriteR cap hc i rows).length := by
  intro n
  induction n with
  | zero =>
    intro rows h i
    have : rows = [] := by cases rows <;> simp_all
    subst this
    simp [rewriteR_nil]
  | succ n ih =>
    intro rows h i
    cases rows with
    | nil => simp [rewriteR_nil]
    | cons r rest =>
      have hlen : ((r :: rest).drop cap).length ≤ n := by
        simp only [List.length_drop, List.length_cons]
        simp only [List.length_cons] at h
        omega
      rw [rewriteR_cons]
      simp only [List.map_cons, List.length_cons, List.range'_succ]
      rw [ih _ hlen (i + 1)]

theorem rewriteR_dropLast_aux (cap : ℕ) (hc : 0 < cap) :
    ∀ (n : ℕ) (rows : List VRow), rows.length ≤ n → ∀ (i : ℕ),
      ∀ f ∈ (rewriteR cap hc i rows).dropLast, f.2.length = cap := by
  intro n
  induction n with
  | zero =>
    intro rows h i
    have : rows = [] := by cases rows <;> simp_all
    subst this
    simp [rewriteR_nil]
  | succ n ih =>
    intro rows h i
    cases rows with
    | nil => simp [rewriteR_nil]
    | cons r rest =>
      have hlen : ((r :: rest).drop cap).length ≤ n := by
        simp only [List.length_drop, List.length_cons]
        simp only [List.length_cons] at h
        omega
      rw [rewriteR_cons]
      cases htail : rewriteR cap hc (i + 1) ((r :: rest).drop cap) with
      | nil => simp
      | cons y ys =>
        have hne : (r :: rest).drop cap ≠ [] := by
          intro hnil
          rw [hnil, rewriteR_nil] at htail
          exact List.noConfusion htail
        have hcaple : cap < (r :: rest).length := by
          by_contra hle
          exact hne (List.drop_eq_nil_of_le (le_of_not_lt hle))
        intro f hf
        rw [List.dropLast_cons₂] at hf
        rcases List.mem_cons.mp hf with hf1 | hf2
        · subst hf1
          exact List.length_take_of_le (le_of_lt hcaple)
        · have := ih _ hlen (i + 1)
          rw [htail] at this
          exact this f hf2

theorem split_count_step (cap m : ℕ) (hc : 0 < cap) (hm : 0 < m) :
    (m - cap + cap - 1) / cap + 1 = (m + cap - 1) / cap := by
  have hrhs : m + cap - 1 = (m - 1) + cap := by omega
  rw [hrhs, Nat.add_div_right _ hc]
  rcases le_or_lt cap m with hcm | hcm
  · have : m - cap + cap - 1 = m - 1 := by omega
    rw [this]
  · have h1 : m - cap + cap - 1 = cap - 1 := by omega
    rw [h1, Nat.div_eq_of_lt (by omega), Nat.div_eq_of_lt (by omega)]

theorem rewriteR_length_aux (cap : ℕ) (hc : 0 < cap) :
    ∀ (n : ℕ) (rows : List VRow), rows.length ≤ n → ∀ (i : ℕ),
      (rewriteR cap hc i rows).length = (rows.length + cap - 1) / cap := by
  intro n
  induction n with
  | zero =>
    intro rows h i
    have : rows = [] := by cases rows <;> simp_all
    subst this
    simp [rewriteR_nil, Nat.div_eq_of_lt (by omega : cap - 1 < cap)]
  | succ n ih =>
    intro rows h i
    cases rows with
    | nil => simp [rewriteR_nil, Nat.div_eq_of_lt (by omega : cap - 1 < cap)]
    | cons r rest =>
      have hlen : ((r :: rest).drop cap).length ≤ n := by
        simp only [List.length_drop, List.length_cons]
        simp only [List.length_cons] at h
        omega
      rw [rewriteR_cons]
      simp only [List.length_cons]
      rw [ih _ hlen (i + 1)]
      simp only [List.length_drop]
      exact split_count_step cap (r :: rest).length hc (by simp)

/-! ## Supporting lemmas: the vti split loop -/

theorem bRows_length (t : ℤ) : ∀ (vals : List (ℚ × ℚ)) (rid : ℤ),
    (bRows t rid vals).length = vals.length := by
  intro vals
  induction vals with
  | nil => intro rid; simp [bRows]
  | cons v vs ih => intro rid; simp [bRows, ih (rid + 1)]

theorem bRows_append (t : ℤ) : ∀ (l₁ l₂ : List (ℚ × ℚ)) (rid : ℤ),
    bRows t rid (l₁ ++ l₂) = bRows t rid l₁ ++ bRows t (rid + l₁.length) l₂ := by
  intro l₁
  induction l₁ with
  | nil => intro l₂ rid; simp [bRows]
  | cons v vs ih =>
    intro l₂ rid
    simp only [List.cons_append, bRows, List.length_cons, List.append_eq]
    rw [ih l₂ (rid + 1)]
    have h : rid + 1 + (vs.length : ℤ) = rid + ((vs.length : ℤ) + 1) := by ring
    rw [h]
    push_cast
    ring_nf

theorem bRows_map_rowid (t : ℤ) : ∀ (vals : List (ℚ × ℚ)) (rid : ℤ),
    (bRows t rid vals).map VRow.rowid =
      (List.range vals.length).map (fun (k : ℕ) => rid + (k : ℤ)) := by
  intro vals
  induction vals with
  | nil => intro rid; simp [bRows]
  | cons v vs ih =>
    intro rid
    have hsucc : (List.range (vs.length + 1)).map (fun (k : ℕ) => rid + (k : ℤ)) =
        rid :: (List.range vs.length).map (fun (k : ℕ) => (rid + 1) + (k : ℤ)) := by
      rw [List.range_succ_eq_map, List.map_cons, List.map_map]
      congr 1
      · norm_num
      · apply List.map_congr_left
        intro a _
        simp only [Function.comp_apply]
        push_cast
        ring
    simp only [bRows, List.map_cons, List.length_cons]
    rw [ih (rid + 1), hsucc]

theorem foldl_appendB (t : ℤ) : ∀ (vals : List (ℚ × ℚ)) (w : WriterB),
    vals.foldl (appendB t) w = ⟨w.rows ++ bRows t w.rowid vals, w.rowid + vals.length⟩ := by
  intro vals
  induction vals with
  | nil => intro w; simp [bRows]
  | cons v vs ih =>
    intro w
    rw [List.foldl_cons, ih (appendB t w v)]
    simp only [appendB, List.length_cons, bRows]
    congr 1
    · simp [List.append_assoc]
    · push_cast
      ring

theorem rewrite0BLoop_zero (cap : ℕ) (t : ℤ) (rid : ℤ) (vals : List (ℚ × ℚ)) :
    rewrite0BLoop cap t 0 ⟨[], rid⟩ vals =
      (⟨bRows t rid (vals.take cap), rid + (vals.take cap).length⟩, vals.drop cap) := by
  rw [rewrite0BLoop_eq cap t vals 0 ⟨[], rid⟩ (Nat.zero_le cap)]
  simp only [Nat.sub_zero]
  rw [foldl_appendB t (vals.take cap) ⟨[], rid⟩]
  simp

theorem rewriteB_nil (cap : ℕ) (hc : 0 < cap) (t : ℤ) (i : ℕ) (rid : ℤ) :
    rewriteB cap hc t i rid [] = [] := by
  simp [rewriteB]

theorem rewriteB_cons (cap : ℕ) (hc : 0 < cap) (t : ℤ) (i : ℕ) (rid : ℤ)
    (v : ℚ × ℚ) (vs : List (ℚ × ℚ)) :
    rewriteB cap hc t i rid (v :: vs) =
      (i, bRows t rid ((v :: vs).take cap)) ::
        rewriteB cap hc t (i + 1) (rid + ((v :: vs).take cap).length)
          ((v :: vs).drop cap) := by
  simp only [rewriteB, rewrite0BLoop_zero]

theorem rewriteB_join_aux (cap : ℕ) (hc : 0 < cap) (t : ℤ) :
    ∀ (n : ℕ) (vals : List (ℚ × ℚ)), vals.length ≤ n → ∀ (i : ℕ) (rid : ℤ),
      ((rewriteB cap hc t i rid vals).map Prod.snd).flatten = bRows t rid vals := by
  intro n
  induction n with
  | zero =>
    intro vals h i rid
    have : vals = [] := by cases vals <;> simp_all
    subst this
    simp [rewriteB_nil, bRows]
  | succ n ih =>
    intro vals h i rid
    cases vals with
    | nil => simp [rewriteB_nil, bRows]
    | cons v vs =>
      have hlen : ((v :: vs).drop cap).length ≤ n := by
        simp only [List.length_drop, List.length_cons]
        simp only [List.length_cons] at h
        omega
      rw [rewriteB_cons]
      simp only [List.map_cons, List.flatten_cons]
      rw [ih _ hlen (i + 1) (rid + ((v :: vs).take cap).length)]
      conv_rhs => rw [← List.take_append_drop cap (v :: vs)]
      rw [bRows_append]

theorem rewriteB_join (cap : ℕ) (hc : 0 < cap) (t : ℤ) (i : ℕ) (rid : ℤ)
    (vals : List (ℚ × ℚ)) :
    ((rewriteB cap hc t i rid vals).map Prod.snd).flatten = bRows t rid vals :=
  rewriteB_join_aux cap hc t vals.length vals le_rfl i rid

theorem rewriteB_map_fst_aux (cap : ℕ) (hc : 0 < cap) (t : ℤ) :
    ∀ (n : ℕ) (vals : List (ℚ × ℚ)), vals.length ≤ n → ∀ (i : ℕ) (rid : ℤ),
      (rewriteB cap hc t i rid vals).map Prod.fst =
        List.range' i (rewriteB cap hc t i rid vals).length := by
  intro n
  induction n with
  | zero =>
    intro vals h i rid
    have : vals = [] := by cases vals <;> simp_all
    subst this
    simp [rewriteB_nil]
  | succ n ih =>
    intro vals h i rid
    cases vals with
    | nil => simp [rewriteB_nil]
    | cons v vs =>
      have hlen : ((v :: vs).drop cap).length ≤ n := by
        simp only [List.length_drop, List.length_cons]
        simp only [List.length_cons] at h
        omega
      rw [rewriteB_cons]
      simp only [List.map_cons, List.length_cons, List.range'_succ]
      rw [ih _ hlen (i + 1)]

theorem rewriteB_eq_nil_iff (cap : ℕ) (hc : 0 < cap) (t : ℤ) (i : ℕ) (rid : ℤ)
    (vals : List (ℚ × ℚ)) :
    rewriteB cap hc t i rid vals = [] ↔ vals = [] := by
  cases vals with
  | nil => simp [rewriteB_nil]
  | cons v vs => simp [rewriteB_cons]

theorem rewriteB_dropLast_aux (cap : ℕ) (hc : 0 < cap) (t : ℤ) :
    ∀ (n : ℕ) (vals : List (ℚ × ℚ)), vals.length ≤ n → ∀ (i : ℕ) (rid : ℤ),
      ∀ f ∈ (rewriteB cap hc t i rid vals).dropLast, f.2.length = cap := by
  intro n
  induction n with
  | zero =>
    intro vals h i rid
    have : vals = [] := by cases vals <;> simp_all
    subst this
    simp [rewriteB_nil]
  | succ n ih =>
    intro vals h i rid
    cases vals with
    | nil => simp [rewriteB_nil]
    | cons v vs =>
      have hlen : ((v :: vs).drop cap).length ≤ n := by
        simp only [List.length_drop, List.length_cons]
        simp only [List.length_cons] at h
        omega
      rw [rewriteB_cons]
      cases htail : rewriteB cap hc t (i + 1) (rid + ((v :: vs).take cap).length)
          ((v :: vs).drop cap) with
      | nil => simp
      | cons y ys =>
        have hne : (v :: vs).drop cap ≠ [] := by
          intro hnil
          rw [hnil, rewriteB_nil] at htail
          exact List.noConfusion htail
        have hcaple : cap < (v :: vs).length := by
          by_contra hle
          exact hne (List.drop_eq_nil_of_le (le_of_not_lt hle))
        intro f hf
        rw [List.dropLast_cons₂] at hf
        rcases List.mem_cons.mp hf with hf1 | hf2
        · subst hf1
          rw [bRows_length]
          exact List.length_take_of_le (le_of_lt hcaple)
        · have := ih _ hlen (i + 1) (rid + ((v :: vs).take cap).length)
          rw [htail] at this
          exact this f hf2

theorem rewriteB_length_aux (cap : ℕ) (hc : 0 < cap) (t : ℤ) :
    ∀ (n : ℕ) (vals : List (ℚ × ℚ)), vals.length ≤ n → ∀ (i : ℕ) (rid : ℤ),
      (rewriteB cap hc t i rid vals).length = (vals.length + cap - 1) / cap := by
  intro n
  induction n with
  | zero =>
    intro vals h i rid
    have : vals = [] := by cases vals <;> simp_all
    subst this
    simp [rewriteB_nil, Nat.div_eq_of_lt (by omega : cap - 1 < cap)]
  | succ n ih =>
    intro vals h i rid
    cases vals with
    | nil => simp [rewriteB_nil, Nat.div_eq_of_lt (by omega : cap - 1 < cap)]
    | cons v vs =>
      have hlen : ((v :: vs).drop cap).length ≤ n := by
        simp only [List.length_drop, List.length_cons]
        simp only [List.length_cons] at h
        omega
      rw [rewriteB_cons]
      simp only [List.length_cons]
      rw [ih _ hlen (i + 1) (rid + ((v :: vs).take cap).length)]
      simp only [List.length_drop]
      exact split_count_step cap (v :: vs).length hc (by simp)

/-! ## Claim C1: the row-count ceiling partition -/

theorem natPos3 : (0 : ℕ) < 3 := by decide

theorem natPos2 : (0 : ℕ) < 2 := by decide

/-- Seven concrete repack rows. -/
def sevenRows : List VRow :=
  [⟨1, 0, 0, 0⟩, ⟨1, 1, 0, 0⟩, ⟨1, 2, 0, 0⟩, ⟨1, 3, 0, 0⟩,
   ⟨1, 4, 0, 0⟩, ⟨1, 5, 0, 0⟩, ⟨1, 6, 0, 0⟩]

/-- Five concrete repack rows. -/
def fiveRows : List VRow :=
  [⟨2, 0, 1, 2⟩, ⟨2, 1, 3, 4⟩, ⟨2, 2, 5, 6⟩, ⟨2, 3, 7, 8⟩, ⟨2, 4, 9, 10⟩]

/-- C1 (confirmed): the observed ceilings are 25,000,000 (vti splitting
converter) and 31,250,000 (repack tool), and for every positive ceiling
`cap` and every record stream, both split loops partition the stream in
order into files with zero-based sequence suffixes 0, 1, 2, …, every file
except the last holding exactly `cap` rows, the per-file row counts
summing to the stream length, and exactly ⌈N/cap⌉ files being produced. -/
theorem split_rowcount_partition :
    vtiSplitCeiling = 25000000 ∧ repackCeiling = 31250000 ∧
    (∀ (cap : ℕ) (hc : 0 < cap) (rows : List VRow),
      ((rewriteR cap hc 0 rows).map Prod.snd).flatten = rows ∧
      (rewriteR cap hc 0 rows).map Prod.fst =
        List.range (rewriteR cap hc 0 rows).length ∧
      (∀ f ∈ (rewriteR cap hc 0 rows).dropLast, f.2.length = cap) ∧
      ((rewriteR cap hc 0 rows).map (fun f => f.2.length)).sum = rows.length ∧
      (rewriteR cap hc 0 rows).length = (rows.length + cap - 1) / cap) ∧
    (∀ (cap : ℕ) (hc : 0 < cap) (t rid : ℤ) (vals : List (ℚ × ℚ)),
      ((rewriteB cap hc t 0 rid vals).map Prod.snd).flatten = bRows t rid vals ∧
      (rewriteB cap hc t 0 rid vals).map Prod.fst =
        List.range (rewriteB cap hc t 0 rid vals).length ∧
      (∀ f ∈ (rewriteB cap hc t 0 rid vals).dropLast, f.2.length = cap) ∧
      ((rewriteB cap hc t 0 rid vals).map (fun f => f.2.length)).sum = vals.length ∧
      (rewriteB cap hc t 0 rid vals).length = (vals.length + cap - 1) / cap) := by
  refine ⟨rfl, rfl, ?_, ?_⟩
  · intro cap hc rows
    have hj := rewriteR_join cap hc 0 rows
    refine ⟨hj, ?_, rewriteR_dropLast_aux cap hc rows.length rows le_rfl 0, ?_, ?_⟩
    · rw [rewriteR_map_fst_aux cap hc rows.length rows le_rfl 0, List.range_eq_range']
    · calc ((rewriteR cap hc 0 rows).map (fun f => f.2.length)).sum
          = (((rewriteR cap hc 0 rows).map Prod.snd).map List.length).sum := by
            rw [List.map_map]; rfl
        _ = (((rewriteR cap hc 0 rows).map Prod.snd).flatten).length :=
            (List.length_flatten _).symm
        _ = rows.length := by rw [hj]
    · exact rewriteR_length_aux cap hc rows.length rows le_rfl 0
  · intro cap hc t rid vals
    have hj := rewriteB_join cap hc t 0 rid vals
    refine ⟨hj, ?_, rewriteB_dropLast_aux cap hc t vals.length vals le_rfl 0 rid, ?_, ?_⟩
    · rw [rewriteB_map_fst_aux cap hc t vals.length vals le_rfl 0 rid, List.range_eq_range']
    · calc ((rewriteB cap hc t 0 rid vals).map (fun f => f.2.length)).sum
          = (((rewriteB cap hc t 0 rid vals).map Prod.snd).map List.length).sum := by
            rw [List.map_map]; rfl
        _ = (((rewriteB cap hc t 0 rid vals).map Prod.snd).flatten).length :=
            (List.length_flatten _).symm
        _ = vals.length := by rw [hj, bRows_length]
    · exact rewriteB_length_aux cap hc t vals.length vals le_rfl 0 rid

/-- C1 witness: ceiling 3 and a stream of 7 rows produce exactly 3 files
with row counts [3, 3, 1] and sequence suffixes 0, 1, 2. -/
theorem split_rowcount_partition_witness :
    0 < 3 ∧
    (rewriteR 3 natPos3 0 sevenRows).map (fun f => (f.1, f.2.length)) =
      [(0, 3), (1, 3), (2, 1)] ∧
    ((rewriteR 3 natPos3 0 sevenRows).map Prod.snd).flatten = sevenRows :=
  ⟨natPos3, by simp [rewriteR_cons, rewriteR_nil, sevenRows],
   (split_rowcount_partition.2.2.1 3 natPos3 sevenRows).1⟩

/-! ## Claim C4: the repack bridge is value-preserving -/

/-- C4 (confirmed): the repack bridge re-emits every decoded row
field-for-field in strict file order — concatenating the split outputs
reproduces the decoded row stream exactly, and re-encoding that decoded
stream under the identical ceiling reproduces the identical outputs. -/
theorem repack_value_preserving (cap : ℕ) (hc : 0 < cap) (rows : List VRow) :
    ((rewriteR cap hc 0 rows).map Prod.snd).flatten = rows ∧
    rewriteR cap hc 0 (((rewriteR cap hc 0 rows).map Prod.snd).flatten) =
      rewriteR cap hc 0 rows := by
  have h := rewriteR_join cap hc 0 rows
  exact ⟨h, by rw [h]⟩

/-- C4 witness: the round trip at ceiling 2 on five concrete rows. -/
theorem repack_value_preserving_witness :
    0 < 2 ∧
    ((rewriteR 2 natPos2 0 fiveRows).map Prod.snd).flatten = fiveRows ∧
    (rewriteR 2 natPos2 0 fiveRows).map (fun f => (f.1, f.2.length)) =
      [(0, 2), (1, 2), (2, 1)] :=
  ⟨natPos2, (repack_value_preserving 2 natPos2 fiveRows).1,
   by simp [rewriteR_cons, rewriteR_nil, fiveRows]⟩

/-! ## Claim C10: split file naming -/

theorem splitName_ne_base (base : String) (j : ℕ) : splitName base j ≠ base := by
  intro h
  have hlen : (splitName base j).length = base.length := congrArg String.length h
  rw [splitName, String.length_append, String.length_append] at hlen
  have hdot : ("." : String).length = 1 := rfl
  rw [hdot] at hlen
  omega

/-- C10 (confirmed): in the splitting converters every output file name
is the base name plus `'.'` plus a zero-based sequence index; for a
non-empty stream the first output is named base plus `".0"`, and the bare
base name is never produced. -/
theorem split_names_zero_based (cap : ℕ) (hc : 0 < cap) (base : String)
    (rows : List VRow) (t : ℤ) (vals : List (ℚ × ℚ)) :
    (rows ≠ [] → (rewriteRNames cap hc base rows).head? = some (splitName base 0) ∧
      base ∉ rewriteRNames cap hc base rows) ∧
    (∀ nm ∈ rewriteRNames cap hc base rows, ∃ j, nm = splitName base j) ∧
    (vals ≠ [] → (rewriteBNames cap hc t base vals).head? = some (splitName base 0) ∧
      base ∉ rewriteBNames cap hc t base vals) ∧
    (∀ nm ∈ rewriteBNames cap hc t base vals, ∃ j, nm = splitName base j) := by
  have hmemR : ∀ nm ∈ rewriteRNames cap hc base rows, ∃ j, nm = splitName base j := by
    intro nm hnm
    obtain ⟨p, _, hp⟩ := List.mem_map.mp hnm
    exact ⟨p.1, hp.symm⟩
  have hmemB : ∀ nm ∈ rewriteBNames cap hc t base vals, ∃ j, nm = splitName base j := by
    intro nm hnm
    obtain ⟨p, _, hp⟩ := List.mem_map.mp hnm
    exact ⟨p.1, hp.symm⟩
  refine ⟨?_, hmemR, ?_, hmemB⟩
  · intro hne
    constructor
    · cases rows with
      | nil => exact absurd rfl hne
      | cons r rest => simp [rewriteRNames, rewriteR_cons]
    · intro hmem
      obtain ⟨j, hj⟩ := hmemR base hmem
      exact splitName_ne_base base j hj.symm
  · intro hne
    constructor
    · cases vals with
      | nil => exact absurd rfl hne
      | cons v vs => simp [rewriteBNames, rewriteB_cons]
    · intro hmem
      obtain ⟨j, hj⟩ := hmemB base hmem
      exact splitName_ne_base base j hj.symm

/-- C10 witness: one row under ceiling 2 produces the single output name
`"out.parquet.0"` — the `".0"` suffix is present even though no split
was needed — and the bare base name is absent. -/
theorem split_names_zero_based_witness :
    ([(⟨1, 0, 0, 0⟩ : VRow)] ≠ ([] : List VRow)) ∧
    (rewriteRNames 2 natPos2 "out.parquet" [⟨1, 0, 0, 0⟩]).head? =
      some (splitName "out.parquet" 0) ∧
    splitName "out.parquet" 0 = "out.parquet.0" ∧
    "out.parquet" ∉ rewriteRNames 2 natPos2 "out.parquet" [⟨1, 0, 0, 0⟩] :=
  ⟨List.cons_ne_nil _ _,
   ((split_names_zero_based 2 natPos2 "out.parquet" [⟨1, 0, 0, 0⟩] 0 []).1
      (List.cons_ne_nil _ _)).1,
   by decide,
   ((split_names_zero_based 2 natPos2 "out.parquet" [⟨1, 0, 0, 0⟩] 0 []).1
      (List.cons_ne_nil _ _)).2⟩

/-! ## Supporting lemmas: the vti2pqtv2a writer invariant -/

/-- Invariant of every reachable vti2pqtv2a writer state: the trace obeys
the adjacency discipline, the trace never ends on an `EndRowGroup`
marker (and when no flush is pending the counter continues the last
row), and a pending flush implies the counter was reset. -/
def InvA (w : WriterA) : Prop :=
  List.Chain' stepOK w.trace ∧
  (∀ e, w.trace.getLast? = some e →
    ∃ r, e = Ev.row r ∧ (w.pending = false → w.rowid = r.rowid + 1)) ∧
  (w.pending = true → w.rowid = 0)

theorem invA_init : InvA WriterA.init := by
  refine ⟨List.chain'_nil, ?_, ?_⟩ <;> simp [WriterA.init]

theorem invA_append (w : WriterA) (t : ℤ) (a b : ℚ) (hw : InvA w) :
    InvA (appendA w t a b) := by
  obtain ⟨hch, hlast, hpend⟩ := hw
  cases hp : w.pending with
  | false =>
    have htr : (appendA w t a b).trace =
        w.trace ++ [Ev.row ⟨t, w.rowid, quant a, quant b⟩] := by
      simp [appendA, hp]
    refine ⟨?_, ?_, ?_⟩
    · rw [htr]
      refine List.Chain'.append hch (List.chain'_singleton _) ?_
      intro x hx y hy
      simp only [List.head?_cons, Option.mem_def, Option.some.injEq] at hy
      subst hy
      obtain ⟨r, hr, hrow⟩ := hlast x (Option.mem_def.mp hx)
      subst hr
      simp only [stepOK]
      exact hrow hp
    · intro e he
      rw [htr, List.getLast?_concat] at he
      refine ⟨⟨t, w.rowid, quant a, quant b⟩, (Option.some.inj he).symm, ?_⟩
      intro _
      rfl
    · intro hcontr
      simp [appendA] at hcontr
  | true =>
    have hrid := hpend hp
    have htr : (appendA w t a b).trace =
        w.trace ++ [Ev.endRowGroup, Ev.row ⟨t, w.rowid, quant a, quant b⟩] := by
      simp [appendA, hp]
    refine ⟨?_, ?_, ?_⟩
    · rw [htr]
      refine List.Chain'.append hch ?_ ?_
      · refine List.chain'_cons.mpr ⟨?_, List.chain'_singleton _⟩
        simp only [stepOK]
        exact hrid
      · intro x hx y hy
        simp only [List.head?_cons, Option.mem_def, Option.some.injEq] at hy
        subst hy
        obtain ⟨r, hr, _⟩ := hlast x (Option.mem_def.mp hx)
        subst hr
        simp only [stepOK]
    · intro e he
      rw [htr,
        show w.trace ++ [Ev.endRowGroup, Ev.row ⟨t, w.rowid, quant a, quant b⟩] =
          (w.trace ++ [Ev.endRowGroup]) ++ [Ev.row ⟨t, w.rowid, quant a, quant b⟩] by
            simp,
        List.getLast?_concat] at he
      refine ⟨⟨t, w.rowid, quant a, quant b⟩, (Option.some.inj he).symm, ?_⟩
      intro _
      rfl
    · intro hcontr
      simp [appendA] at hcontr

theorem invA_flush (w : WriterA) (hw : InvA w) : InvA (flushRowGroupA w) := by
  obtain ⟨hch, hlast, _⟩ := hw
  refine ⟨hch, ?_, fun _ => rfl⟩
  intro e he
  obtain ⟨r, hr, _⟩ := hlast e he
  exact ⟨r, hr, fun hcontr => by simp [flushRowGroupA] at hcontr⟩

theorem invA_runA (ops : List OpA) : InvA (runA ops) := by
  suffices h : ∀ (l : List OpA) (w : WriterA), InvA w → InvA (l.foldl stepA w) from
    h ops WriterA.init invA_init
  intro l
  induction l with
  | nil => exact fun w hw => hw
  | cons op l ih =>
    intro w hw
    cases op with
    | append t a b => exact ih _ (invA_append w t a b hw)
    | flush => exact ih _ (invA_flush w hw)

theorem chain'_get? {α : Type} {R : α → α → Prop} :
    ∀ (l : List α), List.Chain' R l →
      ∀ (i : ℕ) (e e' : α), l.get? i = some e → l.get? (i + 1) = some e' → R e e' := by
  intro l
  induction l with
  | nil => intro _ i e e' h _; simp at h
  | cons x xs ih =>
    intro hch i e e' h1 h2
    cases i with
    | zero =>
      cases xs with
      | nil => simp at h2
      | cons y ys =>
        obtain ⟨hxy, _⟩ := List.chain'_cons.mp hch
        simp only [List.get?_cons_zero, Option.some.injEq] at h1
        have h2' : y = e' := by simpa using h2
        subst h1
        subst h2'
        exact hxy
    | succ n =>
      exact ih hch.tail n e e' (by simpa using h1) (by simpa using h2)

theorem runA_end_has_next (ops : List OpA) (i : ℕ)
    (h : (runA ops).trace.get? i = some Ev.endRowGroup) :
    ∃ r, (runA ops).trace.get? (i + 1) = some (Ev.row r) := by
  obtain ⟨hch, hlast, _⟩ := invA_runA ops
  have hlt : i < (runA ops).trace.length := (List.get?_eq_some.mp h).1
  by_cases hnext : i + 1 < (runA ops).trace.length
  · have h2 : (runA ops).trace.get? (i + 1) =
        some ((runA ops).trace.get ⟨i + 1, hnext⟩) := List.get?_eq_get hnext
    have hstep := chain'_get? _ hch i _ _ h h2
    cases he' : (runA ops).trace.get ⟨i + 1, hnext⟩ with
    | row r => exact ⟨r, by rw [h2, he']⟩
    | endRowGroup =>
      rw [he'] at hstep
      simp only [stepOK] at hstep
  · have hlen : i = (runA ops).trace.length - 1 := by omega
    have hlast' : (runA ops).trace.getLast? = some Ev.endRowGroup := by
      rw [List.getLast?_eq_get?, ← hlen]
      exact h
    obtain ⟨r, hr, _⟩ := hlast _ hlast'
    exact absurd hr (by simp)

/-! ## Claim C2: row id lifecycle -/

/-- Four concrete measurement-value pairs. -/
def fourVals : List (ℚ × ℚ) := [(1, 2), (3, 4), (5, 6), (7, 8)]

/-- Demonstration call sequence on the vti2pqtv2a writer: two appends in
the first row group, a flush, one append in the second row group. -/
def demoOps2 : List OpA :=
  [OpA.append 5 0 0, OpA.append 5 1 2, OpA.flush, OpA.append 6 3 4]

/-- C2 (confirmed): in any vti2pqtv2a writer run, a row directly
following a row has a row id exactly 1 greater; the first row after a
row-group boundary has row id 0 (the per-group policy: `FlushRowGroup`
resets the counter); and in the vti2pqtv2b splitting converter the
continuous row id counter is never reset — concatenating all split files,
the emitted row ids are `rid, rid+1, rid+2, …` straight through every
file boundary. -/
theorem rowid_lifecycle :
    (∀ (ops : List OpA) (i : ℕ) (r r' : VRow),
      (runA ops).trace.get? i = some (Ev.row r) →
      (runA ops).trace.get? (i + 1) = some (Ev.row r') →
      r'.rowid = r.rowid + 1) ∧
    (∀ (ops : List OpA) (i : ℕ) (r' : VRow),
      (runA ops).trace.get? i = some Ev.endRowGroup →
      (runA ops).trace.get? (i + 1) = some (Ev.row r') →
      r'.rowid = 0) ∧
    (∀ w : WriterA, (flushRowGroupA w).rowid = 0) ∧
    (∀ (cap : ℕ) (hc : 0 < cap) (t rid : ℤ) (vals : List (ℚ × ℚ)),
      (((rewriteB cap hc t 0 rid vals).map Prod.snd).flatten).map VRow.rowid =
        (List.range vals.length).map (fun (k : ℕ) => rid + (k : ℤ))) := by
  refine ⟨?_, ?_, fun w => rfl, ?_⟩
  · intro ops i r r' h1 h2
    have hstep := chain'_get? _ (invA_runA ops).1 i _ _ h1 h2
    simpa only [stepOK] using hstep
  · intro ops i r' h1 h2
    have hstep := chain'_get? _ (invA_runA ops).1 i _ _ h1 h2
    simpa only [stepOK] using hstep
  · intro cap hc t rid vals
    rw [rewriteB_join, bRows_map_rowid]

/-- C2 witness: on the demonstration run the second row's id is 1 = 0+1,
the row opening the second row group has id 0, and the vti2pqtv2b split
at ceiling 2 over four values emits row ids 0,1,2,3 across both files. -/
theorem rowid_lifecycle_witness :
    (runA demoOps2).trace.get? 0 = some (Ev.row ⟨5, 0, quant 0, quant 0⟩) ∧
    (runA demoOps2).trace.get? 1 = some (Ev.row ⟨5, 1, quant 1, quant 2⟩) ∧
    (VRow.rowid ⟨5, 1, quant 1, quant 2⟩ : ℤ) = VRow.rowid ⟨5, 0, quant 0, quant 0⟩ + 1 ∧
    (runA demoOps2).trace.get? 2 = some Ev.endRowGroup ∧
    (runA demoOps2).trace.get? 3 = some (Ev.row ⟨6, 0, quant 3, quant 4⟩) ∧
    (VRow.rowid ⟨6, 0, quant 3, quant 4⟩ : ℤ) = 0 ∧
    (((rewriteB 2 natPos2 9 0 0 fourVals).map Prod.snd).flatten).map VRow.rowid =
      (List.range fourVals.length).map (fun (k : ℕ) => (0 : ℤ) + (k : ℤ)) :=
  ⟨by decide, by decide,
   rowid_lifecycle.1 demoOps2 0 _ _ (by decide) (by decide),
   by decide, by decide,
   rowid_lifecycle.2.1 demoOps2 2 _ (by decide) (by decide),
   rowid_lifecycle.2.2.2 2 natPos2 9 0 fourVals⟩

/-! ## Claim C8: lazy row-group flush -/

/-- Demonstration call sequence: one append, a flush, one append. -/
def demoOps : List OpA := [OpA.append 5 0 0, OpA.flush, OpA.append 6 0 0]

/-- C8 (confirmed): `FlushRowGroup` only marks a pending boundary and
resets the per-group row id counter, leaving the sink trace untouched; a
trailing `FlushRowGroup` with no subsequent `Append` is a no-op on the
trace; the row-group end marker is emitted lazily by the next `Append`;
and every `EndRowGroup` marker in a reachable trace is immediately
followed by a row, so a zero-row row group is never opened. -/
theorem flush_lazy_semantics :
    (∀ w : WriterA, flushRowGroupA w = ⟨w.trace, 0, true⟩) ∧
    (∀ ops : List OpA, (runA (ops ++ [OpA.flush])).trace = (runA ops).trace) ∧
    (∀ (w : WriterA) (t : ℤ) (a b : ℚ), w.pending = true →
      (appendA w t a b).trace =
        w.trace ++ [Ev.endRowGroup, Ev.row ⟨t, w.rowid, quant a, quant b⟩]) ∧
    (∀ (ops : List OpA) (i : ℕ), (runA ops).trace.get? i = some Ev.endRowGroup →
      ∃ r, (runA ops).trace.get? (i + 1) = some (Ev.row r)) := by
  refine ⟨fun w => rfl, ?_, ?_, runA_end_has_next⟩
  · intro ops
    simp [runA, List.foldl_append, stepA, flushRowGroupA]
  · intro w t a b h
    simp [appendA, h]

/-- C8 witness: on the demonstration run, appending a trailing flush
leaves the trace unchanged, and the `EndRowGroup` marker at position 1
(emitted lazily by the append that followed the flush) is immediately
followed by a row. -/
theorem flush_lazy_semantics_witness :
    (runA (demoOps ++ [OpA.flush])).trace = (runA demoOps).trace ∧
    (runA demoOps).trace.get? 1 = some Ev.endRowGroup ∧
    (∃ r, (runA demoOps).trace.get? 2 = some (Ev.row r)) ∧
    (WriterA.init.pending = true → False) ∧
    flushRowGroupA (runA demoOps) = ⟨(runA demoOps).trace, 0, true⟩ :=
  ⟨flush_lazy_semantics.2.1 demoOps, by decide,
   flush_lazy_semantics.2.2.2 demoOps 1 (by decide),
   by decide,
   flush_lazy_semantics.1 (runA demoOps)⟩

/-! ## Supporting lemmas: the ordered work map -/

/-- Work items ordered by their timestep key. -/
def keyLt (p q : ℤ × List Char) : Prop := p.1 < q.1

theorem chain_key_lt :
    ∀ (rest : List (ℤ × List Char)) {k' : ℤ} {v' : List Char},
      List.Chain' keyLt ((k', v') :: rest) → ∀ p ∈ rest, k' < p.1 := by
  intro rest
  induction rest with
  | nil => intro k' v' _ p hp; simp at hp
  | cons q rest' ih =>
    intro k' v' hch p hp
    obtain ⟨hq, hch'⟩ := List.chain'_cons.mp hch
    rcases List.mem_cons.mp hp with rfl | hp'
    · exact hq
    · obtain ⟨kq, vq⟩ := q
      exact lt_trans hq (ih hch' p hp')

theorem mapInsert_head (k : ℤ) (v : List Char) :
    ∀ (m : List (ℤ × List Char)) (y : ℤ × List Char),
      (mapInsert k v m).head? = some y → y = (k, v) ∨ m.head? = some y := by
  intro m y
  cases m with
  | nil =>
    intro h
    simp only [mapInsert, List.head?_cons, Option.some.injEq] at h
    exact Or.inl h.symm
  | cons p rest =>
    obtain ⟨k', v'⟩ := p
    intro h
    simp only [mapInsert] at h
    split_ifs at h with h1 h2
    · simp only [List.head?_cons, Option.some.injEq] at h
      exact Or.inl h.symm
    · simp only [List.head?_cons, Option.some.injEq] at h
      exact Or.inl h.symm
    · simp only [List.head?_cons, Option.some.injEq] at h
      exact Or.inr (by simp [h])

theorem mapInsert_chain (k : ℤ) (v : List Char) :
    ∀ (m : List (ℤ × List Char)), List.Chain' keyLt m →
      List.Chain' keyLt (mapInsert k v m) := by
  intro m
  induction m with
  | nil => intro _; exact List.chain'_singleton _
  | cons p rest ih =>
    obtain ⟨k', v'⟩ := p
    intro hch
    by_cases h1 : k < k'
    · simp only [mapInsert, if_pos h1]
      exact List.chain'_cons.mpr ⟨h1, hch⟩
    · by_cases h2 : k = k'
      · subst h2
        simp only [mapInsert, if_neg h1, if_pos rfl]
        cases rest with
        | nil => exact List.chain'_singleton _
        | cons q rest' =>
          exact List.chain'_cons.mpr ⟨(List.chain'_cons.mp hch).1,
            (List.chain'_cons.mp hch).2⟩
      · have h3 : k' < k := by omega
        simp only [mapInsert, if_neg h1, if_neg h2]
        refine List.chain'_cons'.mpr ⟨?_, ih hch.tail⟩
        intro y hy
        rcases mapInsert_head k v rest y (Option.mem_def.mp hy) with rfl | hhead
        · exact h3
        · cases rest with
          | nil => simp at hhead
          | cons q rest' =>
            simp only [List.head?_cons, Option.some.injEq] at hhead
            subst hhead
            exact (List.chain'_cons.mp hch).1

theorem mapInsert_mem (k : ℤ) (v : List Char) :
    ∀ (m : List (ℤ × List Char)), List.Chain' keyLt m →
      ∀ (k₀ : ℤ) (v₀ : List Char),
        ((k₀, v₀) ∈ mapInsert k v m ↔
          (k₀ = k ∧ v₀ = v) ∨ ((k₀, v₀) ∈ m ∧ k₀ ≠ k)) := by
  intro m
  induction m with
  | nil =>
    intro _ k₀ v₀
    simp only [mapInsert, List.mem_singleton, Prod.mk.injEq, List.not_mem_nil,
      false_and, or_false]
  | cons p rest ih =>
    obtain ⟨k', v'⟩ := p
    intro hch k₀ v₀
    have hkeys : ∀ q ∈ rest, k' < q.1 := chain_key_lt rest hch
    by_cases h1 : k < k'
    · simp only [mapInsert, if_pos h1, List.mem_cons]
      constructor
      · rintro (h | h | h)
        · rw [Prod.mk.injEq] at h
          exact Or.inl h
        · refine Or.inr ⟨Or.inl h, ?_⟩
          have hk : k₀ = k' := congrArg Prod.fst h
          omega
        · refine Or.inr ⟨Or.inr h, ?_⟩
          have hgt : k' < k₀ := hkeys _ h
          omega
      · rintro (⟨hk, hv⟩ | ⟨h | h, hne⟩)
        · subst hk; subst hv; exact Or.inl rfl
        · exact Or.inr (Or.inl h)
        · exact Or.inr (Or.inr h)
    · by_cases h2 : k = k'
      · subst h2
        have hins : mapInsert k v ((k, v') :: rest) = (k, v) :: rest := by
          simp [mapInsert, h1]
        rw [hins]
        simp only [List.mem_cons]
        constructor
        · rintro (h | h)
          · rw [Prod.mk.injEq] at h
            exact Or.inl h
          · refine Or.inr ⟨Or.inr h, ?_⟩
            have hgt : k < k₀ := hkeys _ h
            omega
        · rintro (⟨hk, hv⟩ | ⟨h | h, hne⟩)
          · subst hk; subst hv; exact Or.inl rfl
          · exact absurd (congrArg Prod.fst h) hne
          · exact Or.inr h
      · have h3 : k' < k := by omega
        simp only [mapInsert, if_neg h1, if_neg h2, List.mem_cons]
        rw [ih hch.tail k₀ v₀]
        constructor
        · rintro (h | ⟨hk, hv⟩ | ⟨h, hne⟩)
          · refine Or.inr ⟨Or.inl h, ?_⟩
            have hk : k₀ = k' := congrArg Prod.fst h
            omega
          · exact Or.inl ⟨hk, hv⟩
          · exact Or.inr ⟨Or.inr h, hne⟩
        · rintro (⟨hk, hv⟩ | ⟨h | h, hne⟩)
          · exact Or.inr (Or.inl ⟨hk, hv⟩)
          · exact Or.inl h
          · exact Or.inr (Or.inr ⟨h, hne⟩)

theorem processDirA_append (files : List (List Char)) (f : List Char) :
    processDirA (files ++ [f]) =
      if stringEndWith f vtiSuffix then mapInsert (extractKey f) f (processDirA files)
      else processDirA files := by
  simp only [processDirA, List.foldl_append, List.foldl_cons, List.foldl_nil]

theorem matchesWithKey_append (files : List (List Char)) (f : List Char) (k : ℤ) :
    matchesWithKey (files ++ [f]) k =
      matchesWithKey files k ++
        (if stringEndWith f vtiSuffix ∧ extractKey f = k then [f] else []) := by
  simp only [matchesWithKey, List.filter_append]
  congr 1
  by_cases h1 : stringEndWith f vtiSuffix
  · by_cases h2 : extractKey f = k
    · simp [h1, h2]
    · simp [h1, h2]
  · simp [h1]

/-! ## Claim C3: work ordering -/

/-- C3 (amended): the vti2pqtv2a Scheduler's work sequence has strictly
ascending timestep keys, and a (key, file) pair is in the work sequence
exactly when the file is the last-enumerated matching file bearing that
key — the later duplicate replaces the earlier one. -/
theorem work_order_sorted_map (files : List (List Char)) :
    List.Chain' keyLt (processDirA files) ∧
    ∀ (k : ℤ) (v : List Char),
      ((k, v) ∈ processDirA files ↔ (matchesWithKey files k).getLast? = some v) := by
  induction files using List.reverseRecOn with
  | nil =>
    refine ⟨List.chain'_nil, ?_⟩
    intro k v
    simp [processDirA, matchesWithKey]
  | append_singleton l f ih =>
    obtain ⟨ihch, ihmem⟩ := ih
    by_cases hf : stringEndWith f vtiSuffix
    · rw [processDirA_append, if_pos hf]
      refine ⟨mapInsert_chain _ _ _ ihch, ?_⟩
      intro k v
      rw [mapInsert_mem _ _ _ ihch k v, matchesWithKey_append]
      by_cases hk : extractKey f = k
      · rw [if_pos ⟨hf, hk⟩, List.getLast?_concat]
        constructor
        · rintro (⟨_, rfl⟩ | ⟨_, hne⟩)
          · rfl
          · exact absurd hk.symm hne
        · intro h
          exact Or.inl ⟨hk.symm, (Option.some.inj h).symm⟩
      · rw [if_neg (fun hc => hk hc.2), List.append_nil, ← ihmem k v]
        constructor
        · rintro (⟨hk₀, _⟩ | ⟨hmem, _⟩)
          · exact absurd hk₀.symm hk
          · exact hmem
        · intro h
          exact Or.inr ⟨h, fun hc => hk hc.symm⟩
    · rw [processDirA_append, if_neg hf]
      refine ⟨ihch, ?_⟩
      intro k v
      rw [matchesWithKey_append, if_neg (fun hc => hf hc.1), List.append_nil]
      exact ihmem k v

/-- The four demonstration files, with embedded timestep keys 7, 2, 15, 2
(the fourth is a later file duplicating key 2). -/
def demoFiles : List (List Char) :=
  [String.toList "a00007.vti", String.toList "b00002.vti",
   String.toList "c00015.vti", String.toList "d00002.vti"]

/-- C3 counterexample: vti2pqtv2b's `ProcessDir` has no ordered mapping —
it processes matching files in directory-enumeration order, so the files
with embedded keys {7, 2, 15, 2} produce the work sequence [7, 2, 15, 2],
not the strictly ascending deduplicated [2, 7, 15]; the vti2pqtv2a
scheduler does produce [2, 7, 15], with the later file used for key 2. -/
theorem work_order_enum_cex :
    (processDirB demoFiles).map Prod.fst = [7, 2, 15, 2] ∧
    (processDirB demoFiles).map Prod.fst ≠ [2, 7, 15] ∧
    (processDirA demoFiles).map Prod.fst = [2, 7, 15] ∧
    (2, String.toList "d00002.vti") ∈ processDirA demoFiles := by
  decide
